import Mathlib

/-!
Verification development for the classical shadow-tomography estimation
pipeline (notebook `shadow_tomography_linear`): snapshot construction via the
inverse measurement channel, shadow partitioning into batch-mean estimators,
and median-of-means prediction.  Matrices are embedded numpy-style as total
functions `ℕ → ℕ → ℂ` that vanish outside their extent; list-processing code
(`chunks`, `get_estimators`) is embedded polymorphically over the entry type,
exactly as the Python is.
-/

/-! ## Shadow aggregation: `chunks` and `get_estimators` -/

/-- The two Python exceptions that `get_estimators` can raise:
`ZeroDivisionError` from `int(N/K)` when `K = 0`, and `ValueError` from
`range(0, len(lst), 0)` when the chunk size `int(N/K)` is zero. -/
inductive PyError
  | zeroDivisionError
  | valueError
deriving DecidableEq

/-- Python `int(N/K)`: the exact quotient truncated toward zero
(`int()` truncates the float quotient; exact for the magnitudes involved). -/
def pyTruncDiv (a b : ℤ) : ℤ := Int.tdiv a b

/-- `np.floor(N/K)`: the quotient rounded toward negative infinity. -/
def pyFloorDiv (a b : ℤ) : ℤ := Int.fdiv a b

/-- `chunks(lst, n)` (notebook cell defining `chunks`), as forced by
`list(...)`: the slices `lst[i:i+n]` for `i in range(0, len(lst), n)`.
`range(0, L, n)` for `n ≥ 1` has `⌈L/n⌉ = (L + n - 1)/n` elements
`0, n, 2n, ...`; the slice `lst[i:i+n]` is `(lst.drop i).take n`.
Meaningful for `n ≥ 1` (the `n = 0` `ValueError` and the empty result for
negative step are handled at the call site in `get_estimators`). -/
def chunks {α : Type} (lst : List α) (n : ℕ) : List (List α) :=
  (List.range' 0 ((lst.length + n - 1) / n) n).map fun i => (lst.drop i).take n

/-- `reduce(np.add, shade)`: left fold of `+` over a nonempty list seeded with
its head (the empty case never arises: `chunks` yields nonempty slices). -/
def reduceAdd {α : Type} [AddCommMonoid α] : List α → α
  | [] => 0
  | x :: xs => xs.foldl (· + ·) x

/-- `get_estimators(shadow, N, K)` (notebook): splits the shadow into chunks of
`int(N/K)` snapshots and divides each chunk sum by `np.floor(N/K)`.
Control flow faithfully follows Python:
* `K = 0` raises `ZeroDivisionError` inside `int(N/K)`;
* chunk size `int(N/K) = 0` makes `list(chunks(shadow, 0))` raise
  `ValueError` (`range()` arg 3 must not be zero), before any batch is built;
* a negative chunk size makes `range(0, len(shadow), m)` empty, so the
  function silently returns an empty estimator list;
* otherwise each chunk (including a trailing partial one, if any) is summed
  with `reduce(np.add, ·)` and divided by `np.floor(N/K)`.
Polymorphic in the entry type, as the numpy code is. -/
def get_estimators {α : Type} [DivisionRing α] (shadow : List α) (N K : ℤ) :
    Except PyError (List α) :=
  if K = 0 then Except.error PyError.zeroDivisionError
  else if pyTruncDiv N K = 0 then Except.error PyError.valueError
  else if pyTruncDiv N K < 0 then Except.ok []
  else Except.ok ((chunks shadow (pyTruncDiv N K).toNat).map fun shade =>
    reduceAdd shade / ((pyFloorDiv N K : ℤ) : α))

/-! ## numpy-style matrices and the snapshot builders -/

/-- A numpy array of complex entries, embedded as a total function on index
pairs; every concrete matrix built below vanishes outside its extent, and the
operations carry the relevant dimensions explicitly (as numpy carries shapes). -/
abbrev NMat : Type := ℕ → ℕ → ℂ

/-- Matrix product `A.dot(B)` with inner dimension `d`. -/
noncomputable def dot (A B : NMat) (d : ℕ) : NMat :=
  fun i j => ∑ k ∈ Finset.range d, A i k * B k j

/-- `A.conj().T`: conjugate transpose. -/
def ctrans (A : NMat) : NMat := fun i j => (starRingEnd ℂ) (A j i)

/-- `np.eye(d)`: identity matrix of extent `d`. -/
def eye (d : ℕ) : NMat := fun i j => if i = j ∧ i < d then 1 else 0

/-- Scalar multiple `c * A`. -/
def msmul (c : ℂ) (A : NMat) : NMat := fun i j => c * A i j

/-- Elementwise difference `A - B`. -/
def msub (A B : NMat) : NMat := fun i j => A i j - B i j

/-- `np.kron(A, B)` for a second factor of extent `p × p`:
`np.kron(A, B)[i, j] = A[i // p, j // p] * B[i % p, j % p]`. -/
def kron (A B : NMat) (p : ℕ) : NMat :=
  fun i j => A (i / p) (j / p) * B (i % p) (j % p)

/-- Trace of the leading `d × d` block. -/
noncomputable def ntrace (d : ℕ) (A : NMat) : ℂ := ∑ i ∈ Finset.range d, A i i

/-- The numpy scalar `1` viewed as a 1×1 array (the seed of the Kronecker
accumulation in `get_pauli_shadow`). -/
def scalarOne : NMat := fun i j => if i = 0 ∧ j = 0 then 1 else 0

/-- The integer value of a bitstring read in binary, most significant bit
first (`int(bitstring, 2)`); bits are booleans, `true` standing for `'1'`. -/
def bitsVal (bits : List Bool) : ℕ :=
  bits.foldl (fun a b => 2 * a + cond b 1 0) 0

/-- `bitToVector(bitstring)` (notebook): the one-hot column vector of length
`2^n` with its single `1` at index `int(bitstring, 2)`, shaped `(2^n, 1)`. -/
def bitToVector (bits : List Bool) : NMat :=
  fun i j => if i = bitsVal bits ∧ j = 0 then 1 else 0

/-- `invM(rho, n)` (notebook): `(2**n+1)*rho - np.eye(2**n)`, the inverse
channel for n-qubit random Clifford circuits. -/
noncomputable def invM (rho : NMat) (n : ℕ) : NMat :=
  msub (msmul ((2 ^ n + 1 : ℕ) : ℂ) rho) (eye (2 ^ n))

/-- `getSnapshot(state, Udg, n)` (notebook): `snapshot = Udg.dot(state)`,
then `snapshot = snapshot.dot(snapshot.conj().T)` (inner dimension 1, the
ket being a column), then `invM(snapshot, n)`. -/
noncomputable def getSnapshot (state Udg : NMat) (n : ℕ) : NMat :=
  invM (dot (dot Udg state (2 ^ n)) (ctrans (dot Udg state (2 ^ n))) 1) n

/-- The global snapshot of an outcome bitstring, as produced inside
`get_clifford_shadow`: `getSnapshot(bitToVector(memory), Udg, n)` — the
spec's `buildGlobalSnapshot(outcome, unitaryDagger, n)`. -/
noncomputable def buildGlobalSnapshot (outcome : List Bool) (Udg : NMat) : NMat :=
  getSnapshot (bitToVector outcome) Udg outcome.length

/-- Outer product of a column vector with its own conjugate,
`v · v†` (spec §4.2, step 2). -/
noncomputable def outerSelf (v : NMat) : NMat :=
  fun i j => v i 0 * (starRingEnd ℂ) (v j 0)

/-- The spec's closed formula for the global snapshot:
`(2^n + 1) · (Udg·b)(Udg·b)† − I_{2^n}` with `b` the one-hot outcome
vector. -/
noncomputable def specGlobalSnapshot (outcome : List Bool) (Udg : NMat) : NMat :=
  msub (msmul ((2 ^ outcome.length + 1 : ℕ) : ℂ)
      (outerSelf (dot Udg (bitToVector outcome) (2 ^ outcome.length))))
    (eye (2 ^ outcome.length))

/-- `H = np.array([[1,1],[1,-1]])/np.sqrt(2)` from `get_pauli_shadow`. -/
noncomputable def Hmat : NMat := fun i j =>
  if i ≤ 1 ∧ j ≤ 1 then
    (if i = 1 ∧ j = 1 then (-1 : ℂ) else 1) / (Real.sqrt 2 : ℂ)
  else 0

/-- `S = np.array([[1,0],[0,1j]])` from `get_pauli_shadow`. -/
def Smat : NMat := fun i j =>
  if i = 0 ∧ j = 0 then 1 else if i = 1 ∧ j = 1 then Complex.I else 0

/-- `Udgs = [H, S.dot(H), I]` from `get_pauli_shadow`: the fixed 2×2
conjugate-transpose unitaries indexed by basis id (X = 0, Y = 1, Z = 2). -/
noncomputable def Udgs : Fin 3 → NMat := ![Hmat, dot Smat Hmat 2, eye 2]

/-- The per-shot snapshot constructed inside `get_pauli_shadow` (the spec's
`buildFactoredSnapshot`): reverse the outcome bits (`memory = memory[::-1]`),
then for `bit in range(len(memory))` replace the accumulator `snapshot`
(initially the scalar `1`) by
`np.kron(snapshot, getSnapshot(bitToVector(memory[bit]), Udgs[qbases[bit]], 1))`. -/
noncomputable def buildFactoredSnapshot (memory : List Bool)
    (qbases : ℕ → Fin 3) : NMat :=
  (memory.reverse.enum).foldl
    (fun snap p =>
      kron snap (getSnapshot (bitToVector [p.2]) (Udgs (qbases p.1)) 1) 2)
    scalarOne

/-- The spec's single-qubit inverse-channel factor for position `p.1` of the
reversed outcome carrying bit `p.2`: `sub = 3·(rotated outer product) − I₂`. -/
noncomputable def specPauliFactor (qbases : ℕ → Fin 3) (p : ℕ × Bool) : NMat :=
  msub (msmul 3 (outerSelf (dot (Udgs (qbases p.1)) (bitToVector [p.2]) 2)))
    (eye 2)

/-- Kronecker product of a list of 2×2 factors, in order, left-associated;
the product of a single factor is that factor itself. -/
noncomputable def kronProd : List NMat → NMat
  | [] => scalarOne
  | x :: xs => xs.foldl (fun A B => kron A B 2) x

/-! ## Random Pauli basis sampling (`n_pauli_circuit`) -/

/-- Single-qubit gates appearing in the random-Pauli measurement circuit. -/
inductive Gate
  | h
  | sdg
deriving DecidableEq

/-- The basis id `n_pauli_circuit` assigns from one RNG draw
`which_measure`: X (`0`) if the draw is below 1/3, Y (`1`) if it lies in
[1/3, 2/3), Z (`2`) otherwise. -/
noncomputable def basisOfDraw (r : ℝ) : ℕ :=
  if r < 1/3 then 0 else if 1/3 ≤ r ∧ r < 2/3 then 1 else 2

/-- The gates `n_pauli_circuit` appends for one qubit from its RNG draw:
`qc.h` for the X basis, `qc.sdg; qc.h` for the Y basis, none for Z. -/
noncomputable def gatesOfDraw (r : ℝ) : List Gate :=
  if r < 1/3 then [Gate.h]
  else if 1/3 ≤ r ∧ r < 2/3 then [Gate.sdg, Gate.h]
  else []

/-- `n_pauli_circuit(n)` (notebook), with the RNG stream made explicit: given
the list of per-qubit draws (one independent `np.random.rand(1,1)` per qubit,
in loop order), returns the `qbases` map `qubit ↦ basis id` and the per-qubit
gate blocks appended to the circuit, in loop order (the trailing measurement
of all qubits is left implicit). -/
noncomputable def n_pauli_circuit (draws : List ℝ) :
    List ℕ × List (ℕ × List Gate) :=
  (draws.map basisOfDraw,
   (List.range draws.length).map fun q => (q, gatesOfDraw (draws.getD q 0)))

/-! ## Median-of-means prediction (`get_fidelity_prediction`) -/

/-- numpy's ordering on complex values: lexicographic by real part, then
imaginary part. -/
def lexLe (z w : ℂ) : Prop := z.re < w.re ∨ (z.re = w.re ∧ z.im ≤ w.im)

noncomputable instance : DecidableRel lexLe := fun _ _ => Classical.propDecidable _

instance : IsTotal ℂ lexLe where
  total z w := by
    rcases lt_trichotomy z.re w.re with h | h | h
    · exact Or.inl (Or.inl h)
    · rcases le_total z.im w.im with h2 | h2
      · exact Or.inl (Or.inr ⟨h, h2⟩)
      · exact Or.inr (Or.inr ⟨h.symm, h2⟩)
    · exact Or.inr (Or.inl h)

instance : IsTrans ℂ lexLe where
  trans a b c hab hbc := by
    rcases hab with h1 | ⟨e1, i1⟩ <;> rcases hbc with h2 | ⟨e2, i2⟩
    · exact Or.inl (h1.trans h2)
    · exact Or.inl (e2 ▸ h1)
    · exact Or.inl (e1 ▸ h2)
    · exact Or.inr ⟨e1.trans e2, i1.trans i2⟩

instance : IsAntisymm ℂ lexLe where
  antisymm a b hab hba := by
    rcases hab with h1 | ⟨e1, i1⟩ <;> rcases hba with h2 | ⟨e2, i2⟩
    · exact absurd (h1.trans h2) (lt_irrefl _)
    · exact absurd h1 (e2 ▸ lt_irrefl _)
    · exact absurd h2 (e1 ▸ lt_irrefl _)
    · exact Complex.ext e1 (le_antisymm i1 i2)

/-- `np.median`: sort the values (complex values compare lexicographically by
real then imaginary part), take the middle element for odd length or the
average of the two middle elements for even length.  Meaningful for nonempty
input (numpy produces nan and a warning on an empty array). -/
noncomputable def np_median (l : List ℂ) : ℂ :=
  if l.length % 2 = 1 then
    (List.insertionSort lexLe l).getD ((l.length - 1) / 2) 0
  else
    ((List.insertionSort lexLe l).getD (l.length / 2 - 1) 0 +
      (List.insertionSort lexLe l).getD (l.length / 2) 0) / 2

/-- `np.real`. -/
def np_real (z : ℂ) : ℝ := z.re

/-- `get_fidelity_prediction(estimators, psi)` (notebook): applies the
caller-supplied linear functional to every estimator — in the notebook the
functional is qiskit's `state_fidelity(psi, rho, validate=False)`, an external
collaborator abstracted as a parameter per spec §4.4/§6 — and returns
`np.real(np.median(predictions))`, unmodified. -/
noncomputable def get_fidelity_prediction (estimators : List NMat)
    (functional : NMat → ℂ) : ℝ :=
  np_real (np_median (estimators.map functional))

/-- `np.median` restricted to real values: the complex sorting key restricted
to the real axis is the usual order on ℝ. -/
noncomputable def realMedian (l : List ℝ) : ℝ :=
  if l.length % 2 = 1 then
    (List.insertionSort (· ≤ ·) l).getD ((l.length - 1) / 2) 0
  else
    ((List.insertionSort (· ≤ ·) l).getD (l.length / 2 - 1) 0 +
      (List.insertionSort (· ≤ ·) l).getD (l.length / 2) 0) / 2

/-! ## Theorems on the aggregator -/

/-- C1: the claim says `get_estimators` returns exactly `K` estimators and
silently discards the trailing `N - K⌊N/K⌋` snapshots.  The code does not:
`chunks` also yields the trailing partial slice, so for `shadow = [1,2,3,4,5]`,
`N = 5`, `K = 2` the code returns three "estimators" `[3/2, 7/2, 5/2]` — the
trailing snapshot `5` is kept in an extra batch whose sum is still divided by
`m = 2` — instead of the two batch means `[3/2, 7/2]` with `5` dropped that
the claim (and the notebook's own median-of-means formula, which sums exactly
`⌊N/K⌋` snapshots per estimator for `k = 1..K`) prescribes. -/
theorem get_estimators_keeps_trailing_partial_batch :
    get_estimators ([1, 2, 3, 4, 5] : List ℚ) 5 2 =
      Except.ok [3/2, 7/2, 5/2] := by
  have h1 : pyTruncDiv 5 2 = 2 := by decide
  have h2 : pyFloorDiv 5 2 = 2 := by decide
  have h3 : (2 : ℤ).toNat = 2 := by decide
  simp only [get_estimators, h1, h2, h3]
  norm_num [chunks, List.range', reduceAdd]

/-- C5 counterexample: the claim says `get_estimators` fails with a
ConfigError whenever `K < 1`, but for `K = -1`, `N = 3` the code computes
chunk size `int(3 / (-1)) = -3`, `range(0, len, -3)` is empty, and the function
silently returns an empty estimator list — no error is raised. -/
theorem get_estimators_no_error_on_negative_K :
    get_estimators ([1] : List ℚ) 3 (-1) = Except.ok [] := by
  have h1 : pyTruncDiv 3 (-1) = -3 := by decide
  simp only [get_estimators, h1]
  norm_num

/-- C5 (amended): `get_estimators` raises an error if and only if `K = 0`
(ZeroDivisionError) or the truncated quotient `int(N/K)` is zero
(ValueError from a zero `range` step), in both cases before any batch
computation; and for `K ≥ 1` with `⌊N/K⌋ ≥ 1` it raises no error. -/
theorem get_estimators_error_iff {α : Type} [DivisionRing α]
    (shadow : List α) (N K : ℤ) :
    ((∃ e, get_estimators shadow N K = Except.error e) ↔
      K = 0 ∨ pyTruncDiv N K = 0) ∧
    (1 ≤ K → 1 ≤ pyFloorDiv N K →
      ∃ l, get_estimators (α := α) shadow N K = Except.ok l) := by
  constructor
  · unfold get_estimators
    split_ifs with h1 h2 h3
    · exact ⟨fun _ => Or.inl h1, fun _ => ⟨_, rfl⟩⟩
    · exact ⟨fun _ => Or.inr h2, fun _ => ⟨_, rfl⟩⟩
    · exact ⟨fun ⟨e, he⟩ => absurd he (by simp), fun h => absurd h (by tauto)⟩
    · exact ⟨fun ⟨e, he⟩ => absurd he (by simp), fun h => absurd h (by tauto)⟩
  · intro hK hm
    have hKpos : (0 : ℤ) < K := hK
    have hN : (0 : ℤ) ≤ N := by
      by_contra hneg
      push_neg at hneg
      have : pyFloorDiv N K < 1 := by
        unfold pyFloorDiv at *
        rw [Int.fdiv_eq_ediv _ hKpos.le] at *
        have : N / K < 0 := Int.ediv_neg' hneg hKpos
        omega
      omega
    have htf : pyTruncDiv N K = pyFloorDiv N K := by
      unfold pyTruncDiv pyFloorDiv
      exact (Int.fdiv_eq_tdiv hN hKpos.le).symm
    unfold get_estimators
    rw [if_neg (by omega), if_neg (by omega), if_neg (by omega)]
    exact ⟨_, rfl⟩

/-- C5 witness: at `N = 4`, `K = 8` (so `int(N/K) = 0`) an error is indeed
raised, and at `N = 4`, `K = 2` none is. -/
theorem get_estimators_error_iff_witness :
    (∃ e, get_estimators ([1] : List ℚ) 4 8 = Except.error e) ∧
    (∃ l, get_estimators ([1] : List ℚ) 4 2 = Except.ok l) :=
  ⟨(get_estimators_error_iff ([1] : List ℚ) 4 8).1.mpr (Or.inr (by decide)),
   (get_estimators_error_iff ([1] : List ℚ) 4 2).2 (by decide) (by decide)⟩

/-- C10: `get_estimators` never validates that the shadow has length `N`, and
depends on `N` and `K` only through `⌊N/K⌋`: for positive `N, K, N', K'` with
`⌊N/K⌋ = ⌊N'/K'⌋ ≥ 1` it returns identical results on any shadow, with no
error, whether or not the shadow length equals `N`. -/
theorem get_estimators_depends_only_on_quotient {α : Type} [DivisionRing α]
    (shadow : List α) (N K Np Kp : ℤ) (hN : 0 < N) (hK : 0 < K)
    (hNp : 0 < Np) (hKp : 0 < Kp)
    (hq : pyFloorDiv N K = pyFloorDiv Np Kp) (hm : 1 ≤ pyFloorDiv N K) :
    get_estimators shadow N K = get_estimators (α := α) shadow Np Kp ∧
    ∃ l, get_estimators (α := α) shadow N K = Except.ok l := by
  have htf : pyTruncDiv N K = pyFloorDiv N K := by
    unfold pyTruncDiv pyFloorDiv
    exact (Int.fdiv_eq_tdiv hN.le hK.le).symm
  have htf' : pyTruncDiv Np Kp = pyFloorDiv Np Kp := by
    unfold pyTruncDiv pyFloorDiv
    exact (Int.fdiv_eq_tdiv hNp.le hKp.le).symm
  constructor
  · unfold get_estimators
    rw [if_neg (by omega), if_neg (by omega), if_neg (by omega),
        if_neg (by omega), if_neg (by omega), if_neg (by omega),
        htf, htf', hq]
  · unfold get_estimators
    rw [if_neg (by omega), if_neg (by omega), if_neg (by omega)]
    exact ⟨_, rfl⟩

/-- C10 witness: `⌊5/2⌋ = ⌊7/3⌋ = 2`, and the shadow `[1, 2, 3]` has length
`3 ≠ 5` and `3 ≠ 7`, yet both calls agree and neither errors. -/
theorem get_estimators_depends_only_on_quotient_witness :
    ((0:ℤ) < 5 ∧ (0:ℤ) < 2 ∧ pyFloorDiv 5 2 = pyFloorDiv 7 3 ∧
      1 ≤ pyFloorDiv 5 2) ∧
    get_estimators ([1, 2, 3] : List ℚ) 5 2 =
      get_estimators ([1, 2, 3] : List ℚ) 7 3 ∧
    ∃ l, get_estimators ([1, 2, 3] : List ℚ) 5 2 = Except.ok l :=
  ⟨⟨by decide, by decide, by decide, by decide⟩,
   get_estimators_depends_only_on_quotient ([1, 2, 3] : List ℚ) 5 2 7 3
     (by decide) (by decide) (by decide) (by decide) (by decide) (by decide)⟩

/-! ## Snapshot-builder theorems -/

theorem globalSnapshot_spec_formula (outcome : List Bool) (Udg : NMat) :
    buildGlobalSnapshot outcome Udg = specGlobalSnapshot outcome Udg := by
  funext i j
  simp [buildGlobalSnapshot, specGlobalSnapshot, getSnapshot, invM, msub,
    msmul, outerSelf, dot, ctrans, Finset.sum_range_one]

/-- C2: `buildGlobalSnapshot` (that is, `getSnapshot` applied to
`bitToVector(outcome)`) returns exactly
`(2^n + 1)·(Udg·b)(Udg·b)† − I_{2^n}`, where `b` is the one-hot column vector
with its single 1 at the binary value of the outcome bitstring. -/
theorem buildGlobalSnapshot_eq_spec (outcome : List Bool) (Udg : NMat) :
    buildGlobalSnapshot outcome Udg = specGlobalSnapshot outcome Udg :=
  globalSnapshot_spec_formula outcome Udg

/-! ## Basis-sampling theorem -/

/-- C8: in `n_pauli_circuit`, the qubit whose RNG draw is `r` is assigned
basis id 0 (X, a Hadamard gate) exactly when `r < 1/3`, basis id 1 (Y, an
S-dagger then a Hadamard) exactly when `1/3 ≤ r < 2/3`, and basis id 2 (Z, no
gate) otherwise; each qubit consumes exactly its own draw. -/
theorem n_pauli_circuit_basis_assignment (pre post : List ℝ) (r : ℝ) :
    ((n_pauli_circuit (pre ++ r :: post)).1.getD pre.length 9 = 0 ↔
      r < 1/3) ∧
    ((n_pauli_circuit (pre ++ r :: post)).1.getD pre.length 9 = 1 ↔
      1/3 ≤ r ∧ r < 2/3) ∧
    ((n_pauli_circuit (pre ++ r :: post)).1.getD pre.length 9 = 2 ↔
      ¬ r < 1/3 ∧ ¬ (1/3 ≤ r ∧ r < 2/3)) ∧
    ((n_pauli_circuit (pre ++ r :: post)).2.getD pre.length (0, []) =
      (pre.length, gatesOfDraw r)) ∧
    (gatesOfDraw r = [Gate.h] ↔ r < 1/3) ∧
    (gatesOfDraw r = [Gate.sdg, Gate.h] ↔ 1/3 ≤ r ∧ r < 2/3) ∧
    (gatesOfDraw r = [] ↔ ¬ r < 1/3 ∧ ¬ (1/3 ≤ r ∧ r < 2/3)) := by
  have hb : (n_pauli_circuit (pre ++ r :: post)).1.getD pre.length 9 =
      basisOfDraw r := by
    simp only [n_pauli_circuit, List.map_append, List.map_cons]
    rw [List.getD_append_right _ _ _ _ (by simp)]
    simp
  have hd : (pre ++ r :: post).getD pre.length 0 = r := by
    rw [List.getD_append_right _ _ _ _ le_rfl]
    simp
  have hc : (n_pauli_circuit (pre ++ r :: post)).2.getD pre.length (0, []) =
      (pre.length, gatesOfDraw r) := by
    simp only [n_pauli_circuit]
    rw [List.getD_eq_getElem?_getD, List.getElem?_map,
      List.getElem?_range (by simp), Option.map_some', Option.getD_some, hd]
  rw [hb]
  rcases lt_or_le r (1/3) with h1 | h1
  · have e1 : basisOfDraw r = 0 := by
      simp only [basisOfDraw]
      rw [if_pos h1]
    have e2 : gatesOfDraw r = [Gate.h] := by
      simp only [gatesOfDraw]
      rw [if_pos h1]
    refine ⟨by rw [e1]; exact ⟨fun _ => h1, fun _ => rfl⟩, ?_, ?_, hc,
      by rw [e2]; exact ⟨fun _ => h1, fun _ => rfl⟩, ?_, ?_⟩
    · rw [e1]
      exact ⟨fun h => absurd h (by norm_num), fun h => absurd h.1 (by linarith)⟩
    · rw [e1]
      exact ⟨fun h => absurd h (by norm_num), fun h => absurd h1 h.1⟩
    · rw [e2]
      exact ⟨fun h => absurd h (by simp), fun h => absurd h.1 (by linarith)⟩
    · rw [e2]
      exact ⟨fun h => absurd h (by simp), fun h => absurd h1 h.1⟩
  · have nle : ¬ r < 1/3 := not_lt.mpr h1
    rcases lt_or_le r (2/3) with h2 | h2
    · have e1 : basisOfDraw r = 1 := by
        simp only [basisOfDraw]
        rw [if_neg nle, if_pos ⟨h1, h2⟩]
      have e2 : gatesOfDraw r = [Gate.sdg, Gate.h] := by
        simp only [gatesOfDraw]
        rw [if_neg nle, if_pos ⟨h1, h2⟩]
      refine ⟨?_, by rw [e1]; exact ⟨fun _ => ⟨h1, h2⟩, fun _ => rfl⟩, ?_, hc,
        ?_, by rw [e2]; exact ⟨fun _ => ⟨h1, h2⟩, fun _ => rfl⟩, ?_⟩
      · rw [e1]
        exact ⟨fun h => absurd h (by norm_num), fun h => absurd h nle⟩
      · rw [e1]
        exact ⟨fun h => absurd h (by norm_num), fun h => absurd ⟨h1, h2⟩ h.2⟩
      · rw [e2]
        exact ⟨fun h => absurd h (by simp), fun h => absurd h nle⟩
      · rw [e2]
        exact ⟨fun h => absurd h (by simp), fun h => absurd ⟨h1, h2⟩ h.2⟩
    · have n2 : ¬ (1/3 ≤ r ∧ r < 2/3) := fun h => absurd h.2 (not_lt.mpr h2)
      have e1 : basisOfDraw r = 2 := by
        simp only [basisOfDraw]
        rw [if_neg nle, if_neg n2]
      have e2 : gatesOfDraw r = [] := by
        simp only [gatesOfDraw]
        rw [if_neg nle, if_neg n2]
      refine ⟨?_, ?_, by rw [e1]; exact ⟨fun _ => ⟨nle, n2⟩, fun _ => rfl⟩, hc,
        ?_, ?_, by rw [e2]; exact ⟨fun _ => ⟨nle, n2⟩, fun _ => rfl⟩⟩
      · rw [e1]
        exact ⟨fun h => absurd h (by norm_num), fun h => absurd h nle⟩
      · rw [e1]
        exact ⟨fun h => absurd h (by norm_num), fun h => absurd h n2⟩
      · rw [e2]
        exact ⟨fun h => absurd h (by simp), fun h => absurd h nle⟩
      · rw [e2]
        exact ⟨fun h => absurd h (by simp), fun h => absurd h n2⟩

/-! ## Helper lemmas for the snapshot theorems -/

theorem bitsVal_foldl_lt (bits : List Bool) :
    ∀ a : ℕ, bits.foldl (fun a b => 2 * a + cond b 1 0) a <
      (a + 1) * 2 ^ bits.length := by
  induction bits with
  | nil => intro a; simp
  | cons b t ih =>
    intro a
    simp only [List.foldl_cons, List.length_cons]
    calc t.foldl (fun a b => 2 * a + cond b 1 0) (2 * a + cond b 1 0)
        < (2 * a + cond b 1 0 + 1) * 2 ^ t.length := ih _
      _ ≤ (a + 1) * 2 ^ (t.length + 1) := by
        have : cond b 1 0 ≤ 1 := by cases b <;> simp
        rw [pow_succ]
        nlinarith [Nat.pos_pow_of_pos t.length (show 0 < 2 by norm_num)]

theorem bitsVal_lt (bits : List Bool) : bitsVal bits < 2 ^ bits.length := by
  simpa using bitsVal_foldl_lt bits 0

theorem ntrace_eye (d : ℕ) : ntrace d (eye d) = (d : ℂ) := by
  unfold ntrace eye
  rw [Finset.sum_congr rfl
    (fun i hi => by simp [Finset.mem_range.mp hi] : ∀ i ∈ Finset.range d,
      (if i = i ∧ i < d then (1 : ℂ) else 0) = 1)]
  simp

theorem dot_bitToVector (bits : List Bool) (Udg : NMat) (i : ℕ) :
    dot Udg (bitToVector bits) (2 ^ bits.length) i 0 = Udg i (bitsVal bits) := by
  unfold dot bitToVector
  rw [Finset.sum_eq_single (bitsVal bits)]
  · simp
  · intro k _ hkw
    simp [hkw]
  · intro hw
    exact absurd (Finset.mem_range.mpr (bitsVal_lt bits)) hw

/-! ## C4: Hermitian and unit trace of the global snapshot -/

/-- C4: for every outcome bitstring and every unitary `Udg` (its conjugate
transpose times itself is the identity on the `2^n × 2^n` block), the matrix
returned by `buildGlobalSnapshot` is Hermitian and has trace exactly 1,
independent of `n`. -/
theorem buildGlobalSnapshot_hermitian_trace_one (outcome : List Bool)
    (Udg : NMat)
    (hU : ∀ i j, i < 2 ^ outcome.length → j < 2 ^ outcome.length →
      dot (ctrans Udg) Udg (2 ^ outcome.length) i j =
        eye (2 ^ outcome.length) i j) :
    ctrans (buildGlobalSnapshot outcome Udg) = buildGlobalSnapshot outcome Udg ∧
    ntrace (2 ^ outcome.length) (buildGlobalSnapshot outcome Udg) = 1 := by
  have hspec := globalSnapshot_spec_formula outcome Udg
  set n := outcome.length with hn
  set w := bitsVal outcome with hw
  have hwlt : w < 2 ^ n := bitsVal_lt outcome
  constructor
  · rw [hspec]
    funext i j
    simp only [specGlobalSnapshot, ctrans, msub, msmul, outerSelf, eye,
      map_sub, map_mul, Complex.conj_conj, map_natCast]
    have heye : (starRingEnd ℂ) (if j = i ∧ j < 2 ^ n then (1 : ℂ) else 0) =
        (if i = j ∧ i < 2 ^ n then (1 : ℂ) else 0) := by
      by_cases h : i = j
      · subst h; simp
      · rw [if_neg (fun hh => h (hh.1.symm)), if_neg (fun hh => h hh.1)]
        simp
    rw [heye]
    ring
  · rw [hspec]
    unfold specGlobalSnapshot ntrace msub msmul outerSelf
    rw [Finset.sum_sub_distrib, ← Finset.mul_sum]
    have hv : ∀ i, dot Udg (bitToVector outcome) (2 ^ n) i 0 = Udg i w :=
      fun i => dot_bitToVector outcome Udg i
    have hsum : (∑ i ∈ Finset.range (2 ^ n),
        dot Udg (bitToVector outcome) (2 ^ n) i 0 *
          (starRingEnd ℂ) (dot Udg (bitToVector outcome) (2 ^ n) i 0)) = 1 := by
      have : (∑ i ∈ Finset.range (2 ^ n),
          dot Udg (bitToVector outcome) (2 ^ n) i 0 *
            (starRingEnd ℂ) (dot Udg (bitToVector outcome) (2 ^ n) i 0)) =
          dot (ctrans Udg) Udg (2 ^ n) w w := by
        have hrhs : dot (ctrans Udg) Udg (2 ^ n) w w =
            ∑ k ∈ Finset.range (2 ^ n), (starRingEnd ℂ) (Udg k w) * Udg k w :=
          rfl
        rw [hrhs]
        refine Finset.sum_congr rfl fun i _ => ?_
        rw [hv i]
        ring
      rw [this, hU w w hwlt hwlt]
      simp [eye, hwlt]
    rw [hsum]
    have heye2 : (∑ i ∈ Finset.range (2 ^ n), eye (2 ^ n) i i) =
        ((2 ^ n : ℕ) : ℂ) := ntrace_eye (2 ^ n)
    rw [heye2]
    push_cast
    ring

/-- C4 witness: the one-qubit outcome `0` with `Udg = I₂`. -/
theorem buildGlobalSnapshot_hermitian_trace_one_witness :
    (∀ i j, i < 2 ^ ([false] : List Bool).length →
      j < 2 ^ ([false] : List Bool).length →
      dot (ctrans (eye 2)) (eye 2) (2 ^ ([false] : List Bool).length) i j =
        eye (2 ^ ([false] : List Bool).length) i j) ∧
    ctrans (buildGlobalSnapshot [false] (eye 2)) =
      buildGlobalSnapshot [false] (eye 2) ∧
    ntrace (2 ^ ([false] : List Bool).length)
      (buildGlobalSnapshot [false] (eye 2)) = 1 := by
  have hU : ∀ i j, i < 2 ^ ([false] : List Bool).length →
      j < 2 ^ ([false] : List Bool).length →
      dot (ctrans (eye 2)) (eye 2) (2 ^ ([false] : List Bool).length) i j =
        eye (2 ^ ([false] : List Bool).length) i j := by
    intro i j hi hj
    simp only [List.length_cons, List.length_nil, pow_one] at hi hj ⊢
    interval_cases i <;> interval_cases j <;>
      simp [dot, ctrans, eye, Finset.sum_range_succ]
  exact ⟨hU, buildGlobalSnapshot_hermitian_trace_one [false] (eye 2) hU⟩

/-! ## Helper lemmas for the factored (Pauli) snapshot -/

theorem outer_entry (X : NMat) (i j : ℕ) :
    dot X (ctrans X) 1 i j = X i 0 * (starRingEnd ℂ) (X j 0) := by
  simp [dot, ctrans, Finset.sum_range_one]

theorem Udgs_vanish (q : Fin 3) (i j : ℕ) (h : 2 ≤ i ∨ 2 ≤ j) :
    Udgs q i j = 0 := by
  have hs : ∀ i j : ℕ, 2 ≤ i ∨ 2 ≤ j → Smat i j = 0 := by
    intro i j h
    unfold Smat
    rw [if_neg (by omega), if_neg (by omega)]
  have hh : ∀ i j : ℕ, 2 ≤ i ∨ 2 ≤ j → Hmat i j = 0 := by
    intro i j h
    unfold Hmat
    rw [if_neg (by omega)]
  fin_cases q
  · exact hh i j h
  · show dot Smat Hmat 2 i j = 0
    unfold dot
    refine Finset.sum_eq_zero fun k hk => ?_
    rcases h with h | h
    · rw [hs i k (Or.inl h), zero_mul]
    · rw [hh k j (Or.inr h), mul_zero]
  · show eye 2 i j = 0
    unfold eye
    rw [if_neg (by omega)]

theorem getSnapshot1_vanish (b : Bool) (q : Fin 3) (i j : ℕ)
    (h : 2 ≤ i ∨ 2 ≤ j) :
    getSnapshot (bitToVector [b]) (Udgs q) 1 i j = 0 := by
  have hv : ∀ i : ℕ, 2 ≤ i → dot (Udgs q) (bitToVector [b]) (2 ^ 1) i 0 = 0 := by
    intro i hi
    unfold dot
    refine Finset.sum_eq_zero fun k hk => ?_
    rw [Udgs_vanish q i k (Or.inl hi), zero_mul]
  unfold getSnapshot invM msub msmul
  rw [outer_entry]
  have heye : eye (2 ^ 1) i j = 0 := by
    unfold eye
    rw [if_neg (by omega)]
  rw [heye]
  rcases h with hi | hj
  · rw [hv i hi, zero_mul, mul_zero, sub_zero]
  · rw [hv j hj, map_zero, mul_zero, mul_zero, sub_zero]

theorem kron_scalarOne (A : NMat)
    (hA : ∀ i j, 2 ≤ i ∨ 2 ≤ j → A i j = 0) :
    kron scalarOne A 2 = A := by
  funext i j
  unfold kron scalarOne
  by_cases hi : i < 2
  · by_cases hj : j < 2
    · rw [Nat.div_eq_of_lt hi, Nat.div_eq_of_lt hj, if_pos ⟨rfl, rfl⟩,
        Nat.mod_eq_of_lt hi, Nat.mod_eq_of_lt hj, one_mul]
    · rw [if_neg (by omega), hA i j (Or.inr (by omega)), zero_mul]
  · rw [if_neg (by omega), hA i j (Or.inl (by omega)), zero_mul]

theorem getSnapshot1_eq_specPauliFactor (qbases : ℕ → Fin 3) (p : ℕ × Bool) :
    getSnapshot (bitToVector [p.2]) (Udgs (qbases p.1)) 1 =
      specPauliFactor qbases p := by
  funext i j
  unfold getSnapshot invM specPauliFactor msub msmul outerSelf
  rw [outer_entry]
  norm_num

/-! ## C3: the factored snapshot is the Kronecker product of the per-qubit
factors -/

/-- C3: `buildFactoredSnapshot` equals the Kronecker product, over the bits of
the reversed outcome in consumption order, of the per-qubit inverse-channel
factors `3·(Udgᵢ·bᵢ)(Udgᵢ·bᵢ)† − I₂` (with `Udgᵢ` the fixed 2×2
conjugate-transpose unitary for qubit `i`'s basis id); for a single-bit
outcome the result is the single per-qubit factor itself. -/
theorem buildFactoredSnapshot_eq_kronProd (memory : List Bool)
    (qbases : ℕ → Fin 3) :
    buildFactoredSnapshot memory qbases =
      kronProd ((memory.reverse.enum).map (specPauliFactor qbases)) ∧
    ∀ b : Bool, buildFactoredSnapshot [b] qbases =
      specPauliFactor qbases (0, b) := by
  have hstep : (fun (snap : NMat) (p : ℕ × Bool) =>
      kron snap (getSnapshot (bitToVector [p.2]) (Udgs (qbases p.1)) 1) 2) =
      fun snap p => kron snap (specPauliFactor qbases p) 2 := by
    funext snap p
    rw [getSnapshot1_eq_specPauliFactor]
  have hmain : ∀ l : List (ℕ × Bool),
      l.foldl (fun snap p =>
        kron snap (getSnapshot (bitToVector [p.2]) (Udgs (qbases p.1)) 1) 2)
        scalarOne = kronProd (l.map (specPauliFactor qbases)) := by
    intro l
    cases l with
    | nil => rfl
    | cons p t =>
      rw [List.foldl_cons]
      have h1 : kron scalarOne
          (getSnapshot (bitToVector [p.2]) (Udgs (qbases p.1)) 1) 2 =
          specPauliFactor qbases p := by
        rw [kron_scalarOne _
          (fun i j h => getSnapshot1_vanish p.2 (qbases p.1) i j h),
          getSnapshot1_eq_specPauliFactor]
      show t.foldl (fun snap p =>
          kron snap (getSnapshot (bitToVector [p.2]) (Udgs (qbases p.1)) 1) 2)
          (kron scalarOne
            (getSnapshot (bitToVector [p.2]) (Udgs (qbases p.1)) 1) 2) = _
      rw [h1, hstep, List.map_cons]
      show _ = (t.map (specPauliFactor qbases)).foldl
        (fun A B => kron A B 2) (specPauliFactor qbases p)
      rw [List.foldl_map]
  refine ⟨hmain _, fun b => ?_⟩
  have he : (([b] : List Bool).reverse).enum = [(0, b)] := rfl
  unfold buildFactoredSnapshot
  rw [he, List.foldl_cons, List.foldl_nil]
  show kron scalarOne (getSnapshot (bitToVector [b]) (Udgs (qbases 0)) 1) 2 = _
  rw [kron_scalarOne _ (fun i j h => getSnapshot1_vanish b (qbases 0) i j h)]
  exact getSnapshot1_eq_specPauliFactor qbases (0, b)

/-! ## Trace lemmas and C9 -/

theorem ntrace_kron (A B : NMat) (a b : ℕ) (hb : 0 < b) :
    ntrace (a * b) (kron A B b) = ntrace a A * ntrace b B := by
  unfold ntrace kron
  rw [Finset.sum_mul_sum, ← Finset.sum_product']
  refine Finset.sum_nbij' (fun i => (i / b, i % b)) (fun p => p.1 * b + p.2)
    ?_ ?_ ?_ ?_ ?_
  · intro i hi
    rw [Finset.mem_range] at hi
    rw [Finset.mem_product, Finset.mem_range, Finset.mem_range]
    exact ⟨(Nat.div_lt_iff_lt_mul hb).mpr hi, Nat.mod_lt _ hb⟩
  · intro p hp
    rw [Finset.mem_product, Finset.mem_range, Finset.mem_range] at hp
    rw [Finset.mem_range]
    calc p.1 * b + p.2 < p.1 * b + b := by omega
      _ = (p.1 + 1) * b := by ring
      _ ≤ a * b := mul_le_mul_right' (by omega) b
  · intro i _
    show i / b * b + i % b = i
    rw [mul_comm]
    exact Nat.div_add_mod i b
  · intro p hp
    rw [Finset.mem_product, Finset.mem_range, Finset.mem_range] at hp
    show ((p.1 * b + p.2) / b, (p.1 * b + p.2) % b) = p
    have hdiv : (p.1 * b + p.2) / b = p.1 := by
      rw [mul_comm, Nat.mul_add_div hb, Nat.div_eq_of_lt hp.2, Nat.add_zero]
    have hmod : (p.1 * b + p.2) % b = p.2 := by
      rw [mul_comm, Nat.mul_add_mod, Nat.mod_eq_of_lt hp.2]
    rw [hdiv, hmod]
  · intro i _
    rfl

theorem ntrace_getSnapshot1 (b : Bool) (q : Fin 3) :
    ntrace 2 (getSnapshot (bitToVector [b]) (Udgs q) 1) = 1 := by
  have hv : ∀ i, dot (Udgs q) (bitToVector [b]) (2 ^ 1) i 0 =
      Udgs q i (bitsVal [b]) := fun i => dot_bitToVector [b] (Udgs q) i
  have hent : ∀ i, getSnapshot (bitToVector [b]) (Udgs q) 1 i i =
      3 * (Udgs q i (bitsVal [b]) *
        (starRingEnd ℂ) (Udgs q i (bitsVal [b]))) - eye 2 i i := by
    intro i
    show invM _ 1 i i = _
    unfold invM msub msmul
    rw [outer_entry, hv i]
    norm_num
  have hnc : Complex.normSq (1 / (Real.sqrt 2 : ℂ)) = 1 / 2 := by
    rw [map_div₀, map_one, Complex.normSq_ofReal,
      Real.mul_self_sqrt (by norm_num : (0 : ℝ) ≤ 2)]
  have hhalf : ((1 : ℂ) / (Real.sqrt 2 : ℂ)) *
      (starRingEnd ℂ) ((1 : ℂ) / (Real.sqrt 2 : ℂ)) = 1 / 2 := by
    rw [Complex.mul_conj, hnc]
    norm_num
  have hhalfneg : ((-1 : ℂ) / (Real.sqrt 2 : ℂ)) *
      (starRingEnd ℂ) ((-1 : ℂ) / (Real.sqrt 2 : ℂ)) = 1 / 2 := by
    rw [Complex.mul_conj, show ((-1 : ℂ) / (Real.sqrt 2 : ℂ)) =
      -(1 / (Real.sqrt 2 : ℂ)) by ring, Complex.normSq_neg, hnc]
    norm_num
  have hIhalf : (Complex.I * ((1 : ℂ) / (Real.sqrt 2 : ℂ))) *
      (starRingEnd ℂ) (Complex.I * ((1 : ℂ) / (Real.sqrt 2 : ℂ))) = 1 / 2 := by
    rw [Complex.mul_conj, map_mul, Complex.normSq_I, one_mul, hnc]
    norm_num
  have hIhalfneg : (Complex.I * ((-1 : ℂ) / (Real.sqrt 2 : ℂ))) *
      (starRingEnd ℂ)
        (Complex.I * ((-1 : ℂ) / (Real.sqrt 2 : ℂ))) = 1 / 2 := by
    rw [Complex.mul_conj, map_mul, Complex.normSq_I, one_mul,
      show ((-1 : ℂ) / (Real.sqrt 2 : ℂ)) =
        -(1 / (Real.sqrt 2 : ℂ)) by ring, Complex.normSq_neg, hnc]
    norm_num
  have eH00 : Hmat 0 0 = 1 / (Real.sqrt 2 : ℂ) := by
    unfold Hmat
    rw [if_pos ⟨by omega, by omega⟩, if_neg (by omega)]
  have eH01 : Hmat 0 1 = 1 / (Real.sqrt 2 : ℂ) := by
    unfold Hmat
    rw [if_pos ⟨by omega, by omega⟩, if_neg (by omega)]
  have eH10 : Hmat 1 0 = 1 / (Real.sqrt 2 : ℂ) := by
    unfold Hmat
    rw [if_pos ⟨by omega, by omega⟩, if_neg (by omega)]
  have eH11 : Hmat 1 1 = -1 / (Real.sqrt 2 : ℂ) := by
    unfold Hmat
    rw [if_pos ⟨by omega, by omega⟩, if_pos ⟨rfl, rfl⟩]
  have eSH0 : ∀ w, dot Smat Hmat 2 0 w = Hmat 0 w := by
    intro w
    unfold dot
    rw [Finset.sum_range_succ, Finset.sum_range_one]
    have s00 : Smat 0 0 = 1 := rfl
    have s01 : Smat 0 1 = 0 := rfl
    rw [s00, s01, one_mul, zero_mul, add_zero]
  have eSH1 : ∀ w, dot Smat Hmat 2 1 w = Complex.I * Hmat 1 w := by
    intro w
    unfold dot
    rw [Finset.sum_range_succ, Finset.sum_range_one]
    have s10 : Smat 1 0 = 0 := rfl
    have s11 : Smat 1 1 = Complex.I := rfl
    rw [s10, s11, zero_mul, zero_add]
  have key : Udgs q 0 (bitsVal [b]) *
      (starRingEnd ℂ) (Udgs q 0 (bitsVal [b])) +
      Udgs q 1 (bitsVal [b]) *
      (starRingEnd ℂ) (Udgs q 1 (bitsVal [b])) = 1 := by
    have hb0 : bitsVal [false] = 0 := rfl
    have hb1 : bitsVal [true] = 1 := rfl
    obtain ⟨qv, hq⟩ := q
    interval_cases qv
    · have e : Udgs ⟨0, hq⟩ = Hmat := rfl
      rw [e]
      cases b
      · rw [hb0, eH00, eH10, hhalf]
        norm_num
      · rw [hb1, eH01, eH11, hhalf, hhalfneg]
        norm_num
    · have e : Udgs ⟨1, hq⟩ = dot Smat Hmat 2 := rfl
      rw [e]
      cases b
      · rw [hb0, eSH0 0, eSH1 0, eH00, eH10, hhalf, hIhalf]
        norm_num
      · rw [hb1, eSH0 1, eSH1 1, eH01, eH11, hhalf, hIhalfneg]
        norm_num
    · have e : Udgs ⟨2, hq⟩ = eye 2 := rfl
      rw [e]
      cases b
      · rw [hb0]
        simp [eye]
      · rw [hb1]
        simp [eye]
  unfold ntrace
  rw [Finset.sum_range_succ, Finset.sum_range_one, hent 0, hent 1]
  have e0 : eye 2 0 0 = 1 := by simp [eye]
  have e1 : eye 2 1 1 = 1 := by simp [eye]
  rw [e0, e1]
  linear_combination (3 : ℂ) * key

theorem ntrace_foldl_kron (qbases : ℕ → Fin 3) (l : List (ℕ × Bool)) :
    ∀ (init : NMat) (a : ℕ),
      ntrace (a * 2 ^ l.length) (l.foldl (fun snap p =>
        kron snap (getSnapshot (bitToVector [p.2]) (Udgs (qbases p.1)) 1) 2)
        init) = ntrace a init := by
  induction l with
  | nil => intro init a; simp
  | cons p t ih =>
    intro init a
    rw [List.foldl_cons]
    have hdim : a * 2 ^ (p :: t).length = (a * 2) * 2 ^ t.length := by
      rw [List.length_cons, pow_succ]
      ring
    rw [hdim,
      ih (kron init (getSnapshot (bitToVector [p.2]) (Udgs (qbases p.1)) 1) 2)
        (a * 2),
      ntrace_kron init _ a 2 (by norm_num),
      ntrace_getSnapshot1 p.2 (qbases p.1), mul_one]

/-- C9: for every outcome bitstring and every basis assignment, the factored
(per-qubit Pauli) snapshot has trace exactly 1: each 2×2 factor
`3·(Udgᵢ·bᵢ)(Udgᵢ·bᵢ)† − I₂` has trace 1 (the fixed rotation matrices have
unit-norm columns), and the trace of the Kronecker accumulation is the product
of the factors' traces — so the trace-1 guarantee stated for the global
builder also holds for `buildFactoredSnapshot`. -/
theorem buildFactoredSnapshot_trace_one (memory : List Bool)
    (qbases : ℕ → Fin 3) :
    ntrace (2 ^ memory.length) (buildFactoredSnapshot memory qbases) = 1 ∧
    ∀ (b : Bool) (q : Fin 3),
      ntrace 2 (getSnapshot (bitToVector [b]) (Udgs q) 1) = 1 := by
  refine ⟨?_, fun b q => ntrace_getSnapshot1 b q⟩
  unfold buildFactoredSnapshot
  have hlen : (memory.reverse.enum).length = memory.length := by
    rw [List.enum_length, List.length_reverse]
  have hdim : 2 ^ memory.length = 1 * 2 ^ (memory.reverse.enum).length := by
    rw [hlen, one_mul]
  rw [hdim, ntrace_foldl_kron qbases (memory.reverse.enum) scalarOne 1]
  unfold ntrace scalarOne
  rw [Finset.sum_range_one]
  simp

/-! ## C6: the prediction is the real part of the median, unclamped -/

/-- C6: for every nonempty sequence of estimators and every caller-supplied
functional, `get_fidelity_prediction` returns the real component of the median
of the functional values: for any sorted rearrangement `s` of those values
(complex values sorted by real part, ties by imaginary part, per the numeric
library), the prediction is the real part of the middle element for odd count,
or of the average of the two middle elements for even count; and the value is
returned unclamped — a constant functional value `r` (even `r > 1`) is
reported exactly as `r`. -/
theorem get_fidelity_prediction_is_real_median (e : NMat) (rest : List NMat)
    (functional : NMat → ℂ) (s : List ℂ)
    (hperm : s.Perm ((e :: rest).map functional))
    (hsort : s.Sorted lexLe) :
    (get_fidelity_prediction (e :: rest) functional =
      if (e :: rest).length % 2 = 1 then
        (s.getD (((e :: rest).length - 1) / 2) 0).re
      else
        ((s.getD ((e :: rest).length / 2 - 1) 0 +
          s.getD ((e :: rest).length / 2) 0) / 2).re) ∧
    ∀ r : ℝ, get_fidelity_prediction (e :: rest) (fun _ => (r : ℂ)) = r := by
  constructor
  · have hs : s = List.insertionSort lexLe ((e :: rest).map functional) :=
      List.eq_of_perm_of_sorted
        (hperm.trans (List.perm_insertionSort lexLe _).symm) hsort
        (List.sorted_insertionSort lexLe _)
    unfold get_fidelity_prediction np_median np_real
    rw [List.length_map, hs]
    by_cases hpar : (e :: rest).length % 2 = 1
    · rw [if_pos hpar, if_pos hpar]
    · rw [if_neg hpar, if_neg hpar]
  · intro r
    unfold get_fidelity_prediction np_median np_real
    have hmap : ((e :: rest).map fun _ => (r : ℂ)) =
        List.replicate (e :: rest).length (r : ℂ) := List.map_const' _ _
    have hsorted : (List.replicate (e :: rest).length (r : ℂ)).Sorted lexLe := by
      induction (e :: rest).length with
      | zero => exact List.sorted_nil
      | succ n ihn =>
        rw [List.replicate_succ, List.sorted_cons]
        exact ⟨fun b hb => by
          rw [List.eq_of_mem_replicate hb]
          exact Or.inr ⟨rfl, le_rfl⟩, ihn⟩
    have hsort_eq : List.insertionSort lexLe ((e :: rest).map fun _ => (r : ℂ)) =
        List.replicate (e :: rest).length (r : ℂ) := by
      refine List.eq_of_perm_of_sorted ?_ (List.sorted_insertionSort _ _) hsorted
      rw [← hmap]
      exact List.perm_insertionSort _ _
    have hget : ∀ k, k < (e :: rest).length →
        (List.replicate (e :: rest).length (r : ℂ)).getD k 0 = (r : ℂ) := by
      intro k hk
      rw [List.getD_eq_getElem?_getD, List.getElem?_replicate, if_pos hk]
      rfl
    rw [List.length_map, hsort_eq]
    have hlen : 0 < (e :: rest).length := by simp
    by_cases hpar : (e :: rest).length % 2 = 1
    · rw [if_pos hpar, hget _ (by omega)]
      exact Complex.ofReal_re r
    · rw [if_neg hpar, hget _ (by omega), hget _ (by omega)]
      have : ((r : ℂ) + (r : ℂ)) / 2 = (r : ℂ) := by ring
      rw [this]
      exact Complex.ofReal_re r

/-- C6 witness: three constant estimators with functional `M ↦ M[0,0]` give
values `[1, 1, 1]`, already sorted; the prediction is 1, and a constant
functional value 2 (outside the valid fidelity range) is reported as 2. -/
theorem get_fidelity_prediction_is_real_median_witness :
    ([(1 : ℂ), 1, 1]).Perm
      (([scalarOne, scalarOne, scalarOne] : List NMat).map fun M => M 0 0) ∧
    ([(1 : ℂ), 1, 1]).Sorted lexLe ∧
    get_fidelity_prediction [scalarOne, scalarOne, scalarOne]
      (fun M => M 0 0) = 1 ∧
    get_fidelity_prediction [scalarOne, scalarOne, scalarOne]
      (fun _ => ((2 : ℝ) : ℂ)) = 2 := by
  have hm : (([scalarOne, scalarOne, scalarOne] : List NMat).map
      fun M => M 0 0) = [(1 : ℂ), 1, 1] := by
    simp [scalarOne]
  have hperm : ([(1 : ℂ), 1, 1]).Perm
      (([scalarOne, scalarOne, scalarOne] : List NMat).map fun M => M 0 0) := by
    rw [hm]
  have hsort : ([(1 : ℂ), 1, 1]).Sorted lexLe := by
    have hrefl : lexLe 1 1 := Or.inr ⟨rfl, le_rfl⟩
    rw [List.sorted_cons]
    refine ⟨fun b hb => ?_, ?_⟩
    · have hb1 : b = 1 := by simpa using hb
      rw [hb1]
      exact hrefl
    · rw [List.sorted_cons]
      exact ⟨fun b hb => by rw [List.mem_singleton.mp hb]; exact hrefl,
        List.sorted_singleton 1⟩
  have hmain := get_fidelity_prediction_is_real_median scalarOne
    [scalarOne, scalarOne] (fun M => M 0 0) [(1 : ℂ), 1, 1] hperm hsort
  refine ⟨hperm, hsort, ?_, hmain.2 2⟩
  rw [hmain.1]
  norm_num [List.getD_cons_succ, List.getD_cons_zero]

/-! ## Helper lemmas for median robustness (C7) -/

theorem lexLe_ofReal (a b : ℝ) : lexLe (a : ℂ) (b : ℂ) ↔ a ≤ b := by
  unfold lexLe
  simp only [Complex.ofReal_re, Complex.ofReal_im, le_refl, and_true]
  exact le_iff_lt_or_eq.symm

theorem orderedInsert_map_ofReal (a : ℝ) (l : List ℝ) :
    List.orderedInsert lexLe (a : ℂ) (l.map Complex.ofReal) =
      (List.orderedInsert (· ≤ ·) a l).map Complex.ofReal := by
  induction l with
  | nil => rfl
  | cons b t ih =>
    simp only [List.map_cons, List.orderedInsert]
    by_cases h : a ≤ b
    · rw [if_pos ((lexLe_ofReal a b).mpr h), if_pos h, List.map_cons,
        List.map_cons]
    · rw [if_neg (fun hc => h ((lexLe_ofReal a b).mp hc)), if_neg h,
        List.map_cons, ih]

theorem insertionSort_map_ofReal (l : List ℝ) :
    List.insertionSort lexLe (l.map Complex.ofReal) =
      (List.insertionSort (· ≤ ·) l).map Complex.ofReal := by
  induction l with
  | nil => rfl
  | cons a t ih =>
    simp only [List.map_cons, List.insertionSort, ih, orderedInsert_map_ofReal]

theorem getD_map_ofReal (s : List ℝ) (k : ℕ) :
    (s.map Complex.ofReal).getD k 0 = Complex.ofReal (s.getD k 0) := by
  rw [List.getD_eq_getElem?_getD, List.getD_eq_getElem?_getD,
    List.getElem?_map]
  cases s[k]? <;> simp

theorem np_median_map_ofReal (l : List ℝ) :
    np_median (l.map Complex.ofReal) = Complex.ofReal (realMedian l) := by
  unfold np_median realMedian
  rw [List.length_map, insertionSort_map_ofReal]
  by_cases h : l.length % 2 = 1
  · rw [if_pos h, if_pos h, getD_map_ofReal]
  · rw [if_neg h, if_neg h, getD_map_ofReal, getD_map_ofReal]
    push_cast
    ring

theorem card_le_countP_of_getD {α : Type} (p : α → Bool) (d : α) :
    ∀ (l : List α) (T : Finset ℕ),
      (∀ i ∈ T, i < l.length ∧ p (l.getD i d) = true) →
      T.card ≤ l.countP p := by
  intro l
  induction l with
  | nil =>
    intro T hT
    have hE : T = ∅ := by
      refine Finset.eq_empty_of_forall_not_mem fun i hi => ?_
      have := (hT i hi).1
      simp at this
    rw [hE]
    simp
  | cons a t ih =>
    intro T hT
    rw [List.countP_cons]
    have hinj : Set.InjOn (· - 1) ↑(T.erase 0) := by
      intro x hx y hy hxy
      have hx0 : x ≠ 0 := Finset.ne_of_mem_erase (Finset.mem_coe.mp hx)
      have hy0 : y ≠ 0 := Finset.ne_of_mem_erase (Finset.mem_coe.mp hy)
      simp only at hxy
      omega
    have hcardim : ((T.erase 0).image (· - 1)).card = (T.erase 0).card :=
      Finset.card_image_of_injOn hinj
    have hT'mem : ∀ j ∈ (T.erase 0).image (· - 1),
        j < t.length ∧ p (t.getD j d) = true := by
      intro j hj
      obtain ⟨i, hiT, hij⟩ := Finset.mem_image.mp hj
      have hi0 : i ≠ 0 := Finset.ne_of_mem_erase hiT
      obtain ⟨hi1, hi2⟩ := hT i (Finset.mem_of_mem_erase hiT)
      obtain ⟨k, rfl⟩ : ∃ k, i = k + 1 := ⟨i - 1, by omega⟩
      have hjk : j = k := by omega
      subst hjk
      rw [List.getD_cons_succ] at hi2
      refine ⟨?_, hi2⟩
      simp only [List.length_cons] at hi1
      omega
    have hmain := ih ((T.erase 0).image (· - 1)) hT'mem
    by_cases h0 : (0 : ℕ) ∈ T
    · have hpa : p a = true := by
        have := (hT 0 h0).2
        rwa [List.getD_cons_zero] at this
      rw [if_pos hpa]
      have hce : (T.erase 0).card = T.card - 1 := Finset.card_erase_of_mem h0
      have hpos : 0 < T.card := Finset.card_pos.mpr ⟨0, h0⟩
      omega
    · have hce : T.erase 0 = T := Finset.erase_eq_of_not_mem h0
      rw [hce] at hcardim hmain
      split_ifs <;> omega

theorem sorted_getD_le (s : List ℝ) (hs : s.Sorted (· ≤ ·)) (k : ℕ) (y : ℝ)
    (hk : k < s.length)
    (hc : k + 1 ≤ s.countP fun x => decide (x ≤ y)) :
    s.getD k 0 ≤ y := by
  by_contra hgt
  push_neg at hgt
  have hzero : (s.drop k).countP (fun x => decide (x ≤ y)) = 0 := by
    rw [List.countP_eq_zero]
    intro a ha
    rw [List.mem_iff_getElem] at ha
    obtain ⟨j, hj, rfl⟩ := ha
    have hkj : s.getD k 0 ≤ (s.drop k)[j] := by
      rw [List.getElem_drop, List.getD_eq_getElem s 0 hk]
      have hb : k + j < s.length := by
        rw [List.length_drop] at hj
        omega
      have h2 := hs.rel_get_of_le (a := ⟨k, hk⟩) (b := ⟨k + j, hb⟩)
        (by rw [Fin.mk_le_mk]; omega)
      simpa using h2
    simp only [decide_eq_true_eq]
    intro hle
    have : s.getD k 0 ≤ y := le_trans hkj hle
    linarith
  have hsplit : s.countP (fun x => decide (x ≤ y)) =
      (s.take k).countP (fun x => decide (x ≤ y)) +
      (s.drop k).countP (fun x => decide (x ≤ y)) := by
    conv_lhs => rw [← List.take_append_drop k s]
    rw [List.countP_append]
  have htake : (s.take k).countP (fun x => decide (x ≤ y)) ≤ k := by
    calc (s.take k).countP (fun x => decide (x ≤ y)) ≤ (s.take k).length :=
      List.countP_le_length _
    _ ≤ k := by
      rw [List.length_take]
      omega
  omega

theorem sorted_le_getD (s : List ℝ) (hs : s.Sorted (· ≤ ·)) (k : ℕ) (z : ℝ)
    (hk : k < s.length)
    (hc : s.length - k ≤ s.countP fun x => decide (z ≤ x)) :
    z ≤ s.getD k 0 := by
  by_contra hgt
  push_neg at hgt
  have hzero : (s.take (k + 1)).countP (fun x => decide (z ≤ x)) = 0 := by
    rw [List.countP_eq_zero]
    intro a ha
    rw [List.mem_iff_getElem] at ha
    obtain ⟨j, hj, rfl⟩ := ha
    have hjk : (s.take (k + 1))[j] ≤ s.getD k 0 := by
      have hb : j < s.length := by
        rw [List.length_take] at hj
        omega
      rw [List.getElem_take, List.getD_eq_getElem s 0 hk]
      have h2 := hs.rel_get_of_le (a := ⟨j, hb⟩) (b := ⟨k, hk⟩)
        (by rw [Fin.mk_le_mk]; rw [List.length_take] at hj; omega)
      simpa using h2
    simp only [decide_eq_true_eq]
    intro hle
    linarith
  have hsplit : s.countP (fun x => decide (z ≤ x)) =
      (s.take (k + 1)).countP (fun x => decide (z ≤ x)) +
      (s.drop (k + 1)).countP (fun x => decide (z ≤ x)) := by
    conv_lhs => rw [← List.take_append_drop (k + 1) s]
    rw [List.countP_append]
  have hdrop : (s.drop (k + 1)).countP (fun x => decide (z ≤ x)) ≤
      s.length - (k + 1) := by
    calc (s.drop (k + 1)).countP (fun x => decide (z ≤ x)) ≤
        (s.drop (k + 1)).length := List.countP_le_length _
    _ = s.length - (k + 1) := List.length_drop _ _
  omega

theorem realMedian_between (ws : List ℝ) (y z : ℝ) (c : ℕ)
    (hpos : 0 < ws.length) (hc : c ≤ ws.length / 2 - 1)
    (hy : ws.length - c ≤ ws.countP fun x => decide (x ≤ y))
    (hz : ws.length - c ≤ ws.countP fun x => decide (z ≤ x)) :
    z ≤ realMedian ws ∧ realMedian ws ≤ y := by
  have hsort : (List.insertionSort (· ≤ ·) ws).Sorted (· ≤ ·) :=
    List.sorted_insertionSort _ _
  have hperm : (List.insertionSort (· ≤ ·) ws).Perm ws :=
    List.perm_insertionSort _ _
  have hlen : (List.insertionSort (· ≤ ·) ws).length = ws.length :=
    hperm.length_eq
  have hcy : (List.insertionSort (· ≤ ·) ws).countP
      (fun x => decide (x ≤ y)) = ws.countP (fun x => decide (x ≤ y)) :=
    hperm.countP_eq _
  have hcz : (List.insertionSort (· ≤ ·) ws).countP
      (fun x => decide (z ≤ x)) = ws.countP (fun x => decide (z ≤ x)) :=
    hperm.countP_eq _
  unfold realMedian
  by_cases hpar : ws.length % 2 = 1
  · rw [if_pos hpar]
    constructor
    · refine sorted_le_getD _ hsort _ z (by omega) ?_
      rw [hlen, hcz]
      omega
    · refine sorted_getD_le _ hsort _ y (by omega) ?_
      rw [hcy]
      omega
  · rw [if_neg hpar]
    have hlen2 : 2 ≤ ws.length := by omega
    have h1 : z ≤ (List.insertionSort (· ≤ ·) ws).getD
        (ws.length / 2 - 1) 0 := by
      refine sorted_le_getD _ hsort _ z (by omega) ?_
      rw [hlen, hcz]
      omega
    have h2 : (List.insertionSort (· ≤ ·) ws).getD (ws.length / 2) 0 ≤ y := by
      refine sorted_getD_le _ hsort _ y (by omega) ?_
      rw [hcy]
      omega
    have h12 : (List.insertionSort (· ≤ ·) ws).getD (ws.length / 2 - 1) 0 ≤
        (List.insertionSort (· ≤ ·) ws).getD (ws.length / 2) 0 := by
      have hb1 : ws.length / 2 - 1 < (List.insertionSort (· ≤ ·) ws).length := by
        omega
      have hb2 : ws.length / 2 < (List.insertionSort (· ≤ ·) ws).length := by
        omega
      rw [List.getD_eq_getElem _ 0 hb1, List.getD_eq_getElem _ 0 hb2]
      have h3 := hsort.rel_get_of_le (a := ⟨ws.length / 2 - 1, hb1⟩)
        (b := ⟨ws.length / 2, hb2⟩) (by rw [Fin.mk_le_mk]; omega)
      simpa using h3
    constructor
    · linarith
    · linarith

/-! ## C7: median-of-means robustness against a strict minority of corrupted
batch values -/

/-- C7: if a list of batch values is corrupted in at most `⌊K/2⌋ − 1`
positions (the spec's strict minority of bad batches), the median prediction
`np.real(np.median(...))` over the corrupted list changes from the original
median by no more than the magnitude of some uncorrupted value's deviation
from it (hence no more than the largest uncorrupted deviation), and in
particular the corrupted median lies between two uncorrupted values (hence
between the minimum and the maximum of the uncorrupted values). -/
theorem np_median_robust_to_minority_corruption (vs ws : List ℝ)
    (hlen : ws.length = vs.length) (hpos : 0 < vs.length)
    (bad : Finset ℕ) (hbad : bad.card ≤ vs.length / 2 - 1)
    (hgood : ∀ i, i < vs.length → i ∉ bad → vs.getD i 0 = ws.getD i 0) :
    (∃ i, i < vs.length ∧ i ∉ bad ∧
      |(np_median (ws.map Complex.ofReal)).re -
        (np_median (vs.map Complex.ofReal)).re| ≤
      |vs.getD i 0 - (np_median (vs.map Complex.ofReal)).re|) ∧
    (∃ i, i < vs.length ∧ i ∉ bad ∧
      vs.getD i 0 ≤ (np_median (ws.map Complex.ofReal)).re) ∧
    (∃ i, i < vs.length ∧ i ∉ bad ∧
      (np_median (ws.map Complex.ofReal)).re ≤ vs.getD i 0) := by
  have hmw : (np_median (ws.map Complex.ofReal)).re = realMedian ws := by
    rw [np_median_map_ofReal, Complex.ofReal_re]
  have hmv : (np_median (vs.map Complex.ofReal)).re = realMedian vs := by
    rw [np_median_map_ofReal, Complex.ofReal_re]
  set goodIdx : Finset ℕ := Finset.range vs.length \ bad with hgset
  have hgood_card : vs.length ≤ goodIdx.card + bad.card := by
    have hsplit : goodIdx.card + bad.card =
        (Finset.range vs.length ∪ bad).card :=
      Finset.card_sdiff_add_card (Finset.range vs.length) bad
    have hle := Finset.card_le_card
      (Finset.subset_union_left :
        Finset.range vs.length ⊆ Finset.range vs.length ∪ bad)
    have hrange := Finset.card_range vs.length
    omega
  have hbadlt : bad.card < vs.length := by omega
  have hne : goodIdx.Nonempty := by
    rw [← Finset.card_pos]
    omega
  obtain ⟨imax, hmaxmem, hmax⟩ :=
    Finset.exists_max_image goodIdx (fun i => vs.getD i 0) hne
  obtain ⟨imin, hminmem, hmin⟩ :=
    Finset.exists_min_image goodIdx (fun i => vs.getD i 0) hne
  have hmem : ∀ i ∈ goodIdx, i < vs.length ∧ i ∉ bad := by
    intro i hi
    rcases Finset.mem_sdiff.mp hi with ⟨h1, h2⟩
    exact ⟨Finset.mem_range.mp h1, h2⟩
  have hwsval : ∀ i ∈ goodIdx, ws.getD i 0 = vs.getD i 0 := by
    intro i hi
    exact ((hgood i (hmem i hi).1 (hmem i hi).2)).symm
  have hcy : ws.length - bad.card ≤
      ws.countP (fun x => decide (x ≤ vs.getD imax 0)) := by
    refine le_trans ?_ (card_le_countP_of_getD _ 0 ws goodIdx ?_)
    · omega
    · intro i hi
      refine ⟨by rw [hlen]; exact (hmem i hi).1, ?_⟩
      rw [decide_eq_true_eq, hwsval i hi]
      exact hmax i hi
  have hcz : ws.length - bad.card ≤
      ws.countP (fun x => decide (vs.getD imin 0 ≤ x)) := by
    refine le_trans ?_ (card_le_countP_of_getD _ 0 ws goodIdx ?_)
    · omega
    · intro i hi
      refine ⟨by rw [hlen]; exact (hmem i hi).1, ?_⟩
      rw [decide_eq_true_eq, hwsval i hi]
      exact hmin i hi
  have hbounds := realMedian_between ws (vs.getD imax 0) (vs.getD imin 0)
    bad.card (by omega) (by omega) hcy hcz
  rw [hmw, hmv]
  refine ⟨?_, ⟨imin, (hmem imin hminmem).1, (hmem imin hminmem).2,
      hbounds.1⟩,
    ⟨imax, (hmem imax hmaxmem).1, (hmem imax hmaxmem).2, hbounds.2⟩⟩
  rcases le_total (realMedian vs) (realMedian ws) with hdir | hdir
  · refine ⟨imax, (hmem imax hmaxmem).1, (hmem imax hmaxmem).2, ?_⟩
    rw [abs_of_nonneg (by linarith)]
    have : realMedian ws - realMedian vs ≤ vs.getD imax 0 - realMedian vs := by
      linarith [hbounds.2]
    exact le_trans this (le_abs_self _)
  · refine ⟨imin, (hmem imin hminmem).1, (hmem imin hminmem).2, ?_⟩
    rw [abs_of_nonpos (by linarith), neg_sub]
    have : realMedian vs - realMedian ws ≤ realMedian vs - vs.getD imin 0 := by
      linarith [hbounds.1]
    refine le_trans this ?_
    rw [← neg_sub (vs.getD imin 0)]
    exact le_trans (le_abs_self _) (by rw [abs_neg])

/-- C7 witness: five batch values `[0, 0, 0, 0, 0]` with no corrupted
position (`∅`, within the allowed `⌊5/2⌋ − 1 = 1`). -/
theorem np_median_robust_to_minority_corruption_witness :
    ((∅ : Finset ℕ).card ≤ ([0, 0, 0, 0, 0] : List ℝ).length / 2 - 1) ∧
    (∃ i, i < ([0, 0, 0, 0, 0] : List ℝ).length ∧ i ∉ (∅ : Finset ℕ) ∧
      ([0, 0, 0, 0, 0] : List ℝ).getD i 0 ≤
        (np_median (([0, 0, 0, 0, 0] : List ℝ).map Complex.ofReal)).re) := by
  have h := np_median_robust_to_minority_corruption [0, 0, 0, 0, 0]
    [0, 0, 0, 0, 0] rfl (by norm_num) ∅ (by simp) (fun i _ _ => rfl)
  exact ⟨by simp, h.2.1⟩
